import Mathlib

/-!
Verification of the Kalshi orderbook data pipeline.

Shallow embedding of:
- the Order Book State Engine of `kalshi_database.py`
  (`initialize_orderbook_from_snapshot`, `update_orderbook_state`),
  with the per-side Python dict `{price: size}` modelled as an
  association list with dict lookup/insert/remove semantics;
- the best-price extractor `get_best_prices` of `analyze_slippage.py`
  and the slippage/markout pipeline of `process_data` (the backward
  as-of join, side inference, slippage and markout columns);
- the signed-volume normalizer of `process_trades` in
  `analyze_imbalance.py`;
- the L1 extractor `parse_snapshot` of `imbalance_predictability.py`.

Prices and sizes are Python ints, modelled as `Int`. Pandas NaN
propagation (a missing mid-price) is modelled with `Option ℚ`: `none`
is NaN, and arithmetic on a NaN operand yields NaN, while the literal
branches of `np.select`/`np.where` yield defined values.
-/

/-- Dict lookup on an association list from price to size:
the first entry with the given key (Python `d.get(p)`). -/
def pmGet : List (Int × Int) → Int → Option Int
  | [], _ => none
  | e :: rest, p => if e.1 = p then some e.2 else pmGet rest p

/-- Dict store `d[p] = s`: replace the first entry with key `p` in place,
or append a new entry at the end (Python dict insertion order). -/
def pmSet : List (Int × Int) → Int → Int → List (Int × Int)
  | [], p, s => [(p, s)]
  | e :: rest, p, s => if e.1 = p then (p, s) :: rest else e :: pmSet rest p s

/-- Dict removal `d.pop(p, None)`: drop the entries with key `p`. -/
def pmErase : List (Int × Int) → Int → List (Int × Int)
  | [], _ => []
  | e :: rest, p => if e.1 = p then pmErase rest p else e :: pmErase rest p

/-- One market's in-memory orderbook state
`orderbook_state[ticker] = {"yes": {...}, "no": {...}}`. -/
structure Book where
  yes : List (Int × Int)
  no : List (Int × Int)
deriving Repr, DecidableEq

/-- The fresh state `{"yes": {}, "no": {}}`. -/
def emptyBook : Book := ⟨[], []⟩

/-- The side tag of a delta message. -/
inductive Side where
  | yes
  | no
deriving Repr, DecidableEq

/-- Select one side's price-level map. -/
def Book.side (b : Book) : Side → List (Int × Int)
  | Side.yes => b.yes
  | Side.no => b.no

/-- Replace one side's price-level map. -/
def Book.withSide (b : Book) : Side → List (Int × Int) → Book
  | Side.yes, m => { b with yes := m }
  | Side.no, m => { b with no := m }

/-- `OrderbookDatabase.initialize_orderbook_from_snapshot`: ensure a
(possibly fresh) state exists for the ticker, then loop over the
message's `yes` and `no` arrays doing `state[side][price] = size`.
`prior = none` is the case `ticker not in self.orderbook_state`. -/
def initialize_orderbook_from_snapshot (prior : Option Book)
    (yesArr noArr : List (Int × Int)) : Book :=
  let b := prior.getD emptyBook
  let ym := yesArr.foldl (fun m e => pmSet m e.1 e.2) b.yes
  let nm := noArr.foldl (fun m e => pmSet m e.1 e.2) b.no
  ⟨ym, nm⟩

/-- `OrderbookDatabase.update_orderbook_state`: read the current size at
`price` on `side` (default 0), add `delta`; remove the level when the
result is ≤ 0, store it otherwise. `prior = none` is the case
`ticker not in self.orderbook_state` (an empty book is created first). -/
def update_orderbook_state (prior : Option Book) (side : Side)
    (price delta : Int) : Book :=
  let b := prior.getD emptyBook
  let current_size := (pmGet (b.side side) price).getD 0
  let new_size := current_size + delta
  if new_size ≤ 0 then b.withSide side (pmErase (b.side side) price)
  else b.withSide side (pmSet (b.side side) price new_size)

/-- Every stored level of a price-level map has size > 0. -/
def pmAllPos (m : List (Int × Int)) : Prop := ∀ e ∈ m, 0 < e.2

instance (m : List (Int × Int)) : Decidable (pmAllPos m) := by
  unfold pmAllPos; infer_instance

/-- Every stored level of both sides of a book has size > 0. -/
def Book.allPos (b : Book) : Prop := pmAllPos b.yes ∧ pmAllPos b.no

instance (b : Book) : Decidable b.allPos := by
  unfold Book.allPos; infer_instance

/-- Last value written for key `p` by a left-to-right pass over `arr`,
starting from `v`: the lookup a Python `for price, size in arr: d[price]
= size` loop leaves behind at key `p`. -/
def overwrite (arr : List (Int × Int)) (p : Int) (v : Option Int) : Option Int :=
  arr.foldl (fun acc e => if e.1 = p then some e.2 else acc) v

-- Basic dict lemmas.

theorem pmGet_pmSet (m : List (Int × Int)) (q s p : Int) :
    pmGet (pmSet m q s) p = if p = q then some s else pmGet m p := by
  induction m with
  | nil =>
    simp only [pmSet, pmGet]
    by_cases h : p = q
    · simp [h]
    · have h' : ¬ q = p := fun hqp => h hqp.symm
      simp [h, h']
  | cons e rest ih =>
    simp only [pmSet]
    by_cases hq : e.1 = q
    · rw [if_pos hq]
      by_cases hp : p = q
      · simp [pmGet, hp]
      · have hqp : ¬ q = p := fun h => hp h.symm
        have hep : ¬ e.1 = p := fun h => hqp (hq ▸ h)
        simp [pmGet, hp, hqp, hep]
    · simp only [if_neg hq, pmGet, ih]
      by_cases hep : e.1 = p
      · have : ¬ p = q := fun h => hq (hep.trans h)
        simp [hep, this]
      · simp [hep]

theorem pmGet_pmErase (m : List (Int × Int)) (q p : Int) :
    pmGet (pmErase m q) p = if p = q then none else pmGet m p := by
  induction m with
  | nil => simp [pmErase, pmGet]
  | cons e rest ih =>
    simp only [pmErase]
    by_cases hq : e.1 = q
    · rw [if_pos hq, ih]
      by_cases hp : p = q
      · simp [hp]
      · have h2 : ¬ e.1 = p := fun h => hp (h.symm.trans hq)
        simp [pmGet, hp, h2]
    · rw [if_neg hq]
      by_cases hep : e.1 = p
      · have : ¬ p = q := fun h => hq (hep.trans h)
        simp [pmGet, hep, this]
      · simp [pmGet, hep, ih]

theorem pmAllPos_pmSet (m : List (Int × Int)) (q s : Int)
    (hm : pmAllPos m) (hs : 0 < s) : pmAllPos (pmSet m q s) := by
  induction m with
  | nil => intro e he; simp [pmSet] at he; subst he; exact hs
  | cons a rest ih =>
    intro e he
    by_cases hq : a.1 = q
    · simp only [pmSet, if_pos hq, List.mem_cons] at he
      rcases he with he | he
      · subst he; exact hs
      · exact hm e (List.mem_cons_of_mem a he)
    · simp only [pmSet, if_neg hq, List.mem_cons] at he
      rcases he with he | he
      · subst he; exact hm e (List.mem_cons_self e rest)
      · exact ih (fun x hx => hm x (List.mem_cons_of_mem a hx)) e he

theorem pmAllPos_pmErase (m : List (Int × Int)) (q : Int)
    (hm : pmAllPos m) : pmAllPos (pmErase m q) := by
  induction m with
  | nil => intro e he; simp [pmErase] at he
  | cons a rest ih =>
    have hrest : pmAllPos rest := fun x hx => hm x (List.mem_cons_of_mem a hx)
    intro e he
    by_cases hq : a.1 = q
    · exact ih hrest e (by simpa [pmErase, hq] using he)
    · simp only [pmErase, if_neg hq, List.mem_cons] at he
      rcases he with he | he
      · subst he; exact hm e (List.mem_cons_self e rest)
      · exact ih hrest e he

theorem pmGet_foldl_pmSet (arr : List (Int × Int))
    (m : List (Int × Int)) (p : Int) :
    pmGet (arr.foldl (fun m e => pmSet m e.1 e.2) m) p =
      overwrite arr p (pmGet m p) := by
  induction arr generalizing m with
  | nil => simp [overwrite]
  | cons e rest ih =>
    simp only [List.foldl_cons, overwrite, ih, pmGet_pmSet]
    by_cases h : e.1 = p
    · simp [overwrite, h]
    · have h' : ¬ p = e.1 := fun hpe => h hpe.symm
      simp [overwrite, h, h']

/-- One processed snapshot row: integer epoch timestamp and the
mid-price computed from it (`snapshots_df['mid_price']`). -/
structure Snap where
  ts : Int
  mid : ℚ
deriving Repr, DecidableEq

/-- `pd.merge_asof(..., direction='backward')` for a single query time
over a snapshot sequence given in ascending timestamp order: the last
row whose timestamp is ≤ the query time, as a linear merge. -/
def asof (S : List Snap) (t : Int) : Option Snap :=
  S.foldl (fun acc s => if s.ts ≤ t then some s else acc) none

/-- `mid_price` joined onto a trade at its own timestamp
(the first `merge_asof` of `process_data`). -/
def midAt (S : List Snap) (t : Int) : Option ℚ := (asof S t).map Snap.mid

/-- `mid_price` joined at the horizon-shifted time `timestamp + interval`
(the per-interval `merge_asof` of `process_data`). -/
def futureMidAt (S : List Snap) (t h : Int) : Option ℚ := (asof S (t + h)).map Snap.mid

/-- The markout horizons `intervals = [1, 10, 30, 60, 300]`. -/
def horizons : List Int := [1, 10, 30, 60, 300]

/-- Python `max` over a list of ints: `none` on the empty list. -/
def listMax : List Int → Option Int
  | [] => none
  | x :: xs => some (xs.foldl max x)

/-- `get_best_prices` of `analyze_slippage.py`: best bid is the highest
YES price (0 when the YES array is empty), best ask is 100 minus the
highest NO price (100 when the NO array is empty). -/
def get_best_prices (yesArr noArr : List (Int × Int)) : Int × Int :=
  let best_bid : Int := (listMax (yesArr.map Prod.fst)).getD 0
  let best_ask : Int := (listMax (noArr.map Prod.fst)).elim 100 (fun m => 100 - m)
  (best_bid, best_ask)

/-- `snapshots_df['mid_price'] = (best_bid + best_ask) / 2`. -/
def mid_price (bb ba : Int) : ℚ := ((bb : ℚ) + (ba : ℚ)) / 2

/-- Side inference (`np.select` in `process_data`): +1 when the
execution price exceeds the mid, −1 when below, 0 otherwise — also 0
when the mid is NaN, since both NaN comparisons are false. -/
def side_of (exec : ℚ) (mid : Option ℚ) : Int :=
  match mid with
  | some m => if m < exec then 1 else if exec < m then -1 else 0
  | none => 0

/-- `slippage = (exec_price - mid_price) * side`: NaN (`none`)
whenever the mid is NaN, since NaN propagates through `-` and `*`. -/
def slippage (exec : ℚ) (mid : Option ℚ) (side : Int) : Option ℚ :=
  mid.map (fun m => (exec - m) * (side : ℚ))

/-- `markout_{h}s` (`np.where` in `process_data`): future mid minus
execution price for side +1, the negation for side −1, and the literal
0 otherwise — defined even when the future mid is NaN. -/
def markout (exec : ℚ) (fmid : Option ℚ) (side : Int) : Option ℚ :=
  if side = 1 then fmid.map (fun m => m - exec)
  else if side = -1 then fmid.map (fun m => exec - m)
  else some 0

/-- The signed-volume normalizer of `process_trades` in
`analyze_imbalance.py`: `np.where(ts == 'yes', count, np.where(ts ==
'no', -count, 0))`, negated when `is_inverse` is set. -/
def signed_volume (taker_side : String) (count : Int) (is_inverse : Bool) : Int :=
  let v : Int :=
    if taker_side = "yes" then count
    else if taker_side = "no" then -count
    else 0
  if is_inverse then -v else v

/-- Python `max(levels, key=lambda x: x[0])`: the first element whose
price is maximal (a strictly greater price replaces the accumulator). -/
def maxByFst : List (Int × Int) → Option (Int × Int)
  | [] => none
  | x :: xs => some (xs.foldl (fun acc e => if acc.1 < e.1 then e else acc) x)

/-- `parse_snapshot` of `imbalance_predictability.py`: L1 as
`(best bid price, size)` from the maximal-price YES level and
`(100 − best NO price, size)` from the maximal-price NO level,
`none` (NaN pair) for an empty side. -/
def parse_snapshot (yesArr noArr : List (Int × Int)) :
    Option (Int × Int) × Option (Int × Int) :=
  ((maxByFst yesArr).map (fun e => (e.1, e.2)),
   (maxByFst noArr).map (fun e => (100 - e.1, e.2)))

theorem pmAllPos_foldl_pmSet (arr : List (Int × Int))
    (m : List (Int × Int)) (hm : pmAllPos m)
    (harr : ∀ e ∈ arr, 0 < e.2) :
    pmAllPos (arr.foldl (fun m e => pmSet m e.1 e.2) m) := by
  induction arr generalizing m with
  | nil => exact hm
  | cons e rest ih =>
    exact ih (pmSet m e.1 e.2)
      (pmAllPos_pmSet m e.1 e.2 hm (harr e (List.mem_cons_self e rest)))
      (fun x hx => harr x (List.mem_cons_of_mem e hx))

theorem asof_le (S : List Snap) (t : Int) :
    ∀ s, asof S t = some s → s.ts ≤ t := by
  have key : ∀ (L : List Snap) (acc : Option Snap),
      (∀ s, acc = some s → s.ts ≤ t) →
      ∀ s, L.foldl (fun acc s => if s.ts ≤ t then some s else acc) acc = some s →
        s.ts ≤ t := by
    intro L
    induction L with
    | nil => intro acc hacc s hs; exact hacc s hs
    | cons a rest ih =>
      intro acc hacc s hs
      simp only [List.foldl_cons] at hs
      refine ih _ ?_ s hs
      intro s' hs'
      by_cases ha : a.ts ≤ t
      · rw [if_pos ha] at hs'
        injection hs' with h
        exact h ▸ ha
      · rw [if_neg ha] at hs'
        exact hacc s' hs'
  intro s hs
  exact key S none (fun s' hs' => by cases hs') s hs

theorem le_foldl_max (xs : List Int) (a : Int) : a ≤ xs.foldl max a := by
  induction xs generalizing a with
  | nil => exact le_refl a
  | cons x rest ih => exact le_trans (le_max_left a x) (ih (max a x))

theorem mem_le_foldl_max (xs : List Int) (a : Int) :
    ∀ x ∈ xs, x ≤ xs.foldl max a := by
  induction xs generalizing a with
  | nil => intro x hx; cases hx
  | cons y rest ih =>
    intro x hx
    rcases List.mem_cons.mp hx with h | h
    · subst h
      exact le_trans (le_max_right a x) (le_foldl_max rest (max a x))
    · exact ih (max a y) x h

theorem foldl_max_mem (xs : List Int) (a : Int) :
    xs.foldl max a = a ∨ xs.foldl max a ∈ xs := by
  induction xs generalizing a with
  | nil => exact Or.inl rfl
  | cons y rest ih =>
    rcases ih (max a y) with h | h
    · rcases max_choice a y with hm | hm
      · exact Or.inl (by simpa [hm] using h)
      · exact Or.inr (List.mem_cons.mpr (Or.inl (by simpa [hm] using h)))
    · exact Or.inr (List.mem_cons.mpr (Or.inr h))

theorem listMax_bound (l : List Int) (m : Int) (h : listMax l = some m) :
    (∀ x ∈ l, x ≤ m) ∧ m ∈ l := by
  cases l with
  | nil => cases h
  | cons x xs =>
    simp only [listMax] at h
    injection h with h
    subst h
    constructor
    · intro y hy
      rcases List.mem_cons.mp hy with h | h
      · exact h ▸ le_foldl_max xs x
      · exact mem_le_foldl_max xs x y h
    · rcases foldl_max_mem xs x with h | h
      · exact List.mem_cons.mpr (Or.inl h)
      · exact List.mem_cons.mpr (Or.inr h)

theorem listMax_of_ne_nil (l : List Int) (h : l ≠ []) :
    ∃ m, listMax l = some m := by
  cases l with
  | nil => exact absurd rfl h
  | cons x xs => exact ⟨xs.foldl max x, rfl⟩

theorem foldl_maxBy_fst (xs : List (Int × Int)) (x : Int × Int) :
    (xs.foldl (fun acc e => if acc.1 < e.1 then e else acc) x).1 =
      (xs.map Prod.fst).foldl max x.1 := by
  induction xs generalizing x with
  | nil => rfl
  | cons e rest ih =>
    simp only [List.foldl_cons, List.map_cons]
    rw [ih]
    congr 1
    by_cases h : x.1 < e.1
    · rw [if_pos h]
      exact (max_eq_right h.le).symm
    · rw [if_neg h]
      exact (max_eq_left (not_lt.mp h)).symm

theorem maxByFst_map_fst (l : List (Int × Int)) :
    (maxByFst l).map Prod.fst = listMax (l.map Prod.fst) := by
  cases l with
  | nil => rfl
  | cons x xs =>
    have h1 : (maxByFst (x :: xs)).map Prod.fst =
        some ((xs.foldl (fun acc e => if acc.1 < e.1 then e else acc) x).1) := rfl
    rw [h1, foldl_maxBy_fst]
    rfl

theorem overwrite_of_absent (arr : List (Int × Int)) (p : Int) (v : Option Int)
    (h : ∀ e ∈ arr, e.1 ≠ p) : overwrite arr p v = v := by
  induction arr generalizing v with
  | nil => rfl
  | cons e rest ih =>
    simp only [overwrite, List.foldl_cons, if_neg (h e (List.mem_cons_self e rest))]
    exact ih v (fun x hx => h x (List.mem_cons_of_mem e hx))

theorem Book.side_withSide (b : Book) (sd : Side) (m : List (Int × Int)) :
    (b.withSide sd m).side sd = m := by
  cases sd <;> rfl

theorem Book.allPos_side (b : Book) (sd : Side) (hb : b.allPos) :
    pmAllPos (b.side sd) := by
  cases sd
  · exact hb.1
  · exact hb.2

theorem Book.allPos_withSide (b : Book) (sd : Side) (m : List (Int × Int))
    (hb : b.allPos) (hm : pmAllPos m) : (b.withSide sd m).allPos := by
  cases sd
  · exact ⟨hm, hb.2⟩
  · exact ⟨hb.1, hm⟩

theorem update_preserves_allPos (prior : Option Book) (sd : Side)
    (price delta : Int) (h : (prior.getD emptyBook).allPos) :
    (update_orderbook_state prior sd price delta).allPos := by
  unfold update_orderbook_state
  by_cases hc :
      (pmGet ((prior.getD emptyBook).side sd) price).getD 0 + delta ≤ 0
  · simp only [if_pos hc]
    exact Book.allPos_withSide _ _ _ h
      (pmAllPos_pmErase _ _ (Book.allPos_side _ _ h))
  · simp only [if_neg hc]
    exact Book.allPos_withSide _ _ _ h
      (pmAllPos_pmSet _ _ _ (Book.allPos_side _ _ h) (by omega))

theorem emptyBook_allPos : emptyBook.allPos := by
  constructor <;> intro e he <;> cases he

theorem foldl_deltas_allPos (deltas : List (Side × Int × Int)) (b : Book)
    (hb : b.allPos) :
    (deltas.foldl
      (fun bk d => update_orderbook_state (some bk) d.1 d.2.1 d.2.2) b).allPos := by
  induction deltas generalizing b with
  | nil => exact hb
  | cons d rest ih =>
    exact ih _ (update_preserves_allPos (some b) d.1 d.2.1 d.2.2 hb)

/-- Claim C1: the backward as-of join behind `midAt` and `futureMidAt`
never selects a snapshot whose timestamp exceeds the query time, for
every query timestamp and for every horizon-shifted query time `t + h`
with `h` one of the markout horizons. -/
theorem asof_never_lookahead (S : List Snap) (t : Int) :
    (∀ s, asof S t = some s → s.ts ≤ t) ∧
    (∀ h ∈ horizons, ∀ s, asof S (t + h) = some s → s.ts ≤ t + h) :=
  ⟨asof_le S t, fun h _ s hs => asof_le S (t + h) s hs⟩

/-- Claim C1 witness: on the one-snapshot history `[⟨5, 1⟩]` queried at
`t = 6` and at `t + 1 = 7`, the selected snapshot's timestamp respects
both bounds. -/
theorem asof_never_lookahead_witness :
    (⟨5, 1⟩ : Snap).ts ≤ 6 ∧ (⟨5, 1⟩ : Snap).ts ≤ 6 + 1 :=
  ⟨(asof_never_lookahead [⟨5, 1⟩] 6).1 ⟨5, 1⟩ (by decide),
   (asof_never_lookahead [⟨5, 1⟩] 6).2 1 (by decide) ⟨5, 1⟩ (by decide)⟩

/-- Claim C4: `update_orderbook_state` reads the current size at the
price on the side (0 when absent), adds the delta, removes the level
when the result is ≤ 0 and stores it otherwise; a delta of the negated
current size removes the level, a positive delta on an absent level
inserts it, and a missing prior state (`prior = none`) is an empty
book, so the operation is total. -/
theorem update_orderbook_state_spec (prior : Option Book) (sd : Side)
    (price delta : Int) :
    (pmGet ((update_orderbook_state prior sd price delta).side sd) price =
      (if (pmGet ((prior.getD emptyBook).side sd) price).getD 0 + delta ≤ 0
       then none
       else some ((pmGet ((prior.getD emptyBook).side sd) price).getD 0 + delta))) ∧
    (∀ b : Book, ∀ cur : Int, pmGet (b.side sd) price = some cur →
       pmGet ((update_orderbook_state (some b) sd price (-cur)).side sd) price = none) ∧
    (∀ b : Book, pmGet (b.side sd) price = none → 0 < delta →
       pmGet ((update_orderbook_state (some b) sd price delta).side sd) price =
         some delta) := by
  have main : ∀ (pr : Option Book) (d : Int),
      pmGet ((update_orderbook_state pr sd price d).side sd) price =
        (if (pmGet ((pr.getD emptyBook).side sd) price).getD 0 + d ≤ 0
         then none
         else some ((pmGet ((pr.getD emptyBook).side sd) price).getD 0 + d)) := by
    intro pr d
    unfold update_orderbook_state
    by_cases hc : (pmGet ((pr.getD emptyBook).side sd) price).getD 0 + d ≤ 0
    · simp [if_pos hc, Book.side_withSide, pmGet_pmErase]
    · simp [if_neg hc, Book.side_withSide, pmGet_pmSet]
  refine ⟨main prior delta, ?_, ?_⟩
  · intro b cur hcur
    rw [main (some b) (-cur)]
    have hb : pmGet (((some b).getD emptyBook).side sd) price = some cur := hcur
    rw [hb]
    simp only [Option.getD_some]
    rw [if_pos (by omega)]
  · intro b hnone hpos
    rw [main (some b) delta]
    have hb : pmGet (((some b).getD emptyBook).side sd) price = none := hnone
    rw [hb]
    simp only [Option.getD_none, zero_add]
    rw [if_neg (by omega)]

/-- Claim C4 witness: a delta of −5 against a YES level of size 5 at
price 40 removes the level; a delta of +3 against an empty book inserts
a level of size 3. -/
theorem update_orderbook_state_spec_witness :
    pmGet ((update_orderbook_state (some ⟨[(40, 5)], []⟩) Side.yes 40 (-5)).side
      Side.yes) 40 = none ∧
    pmGet ((update_orderbook_state (some emptyBook) Side.yes 40 3).side
      Side.yes) 40 = some 3 :=
  ⟨(update_orderbook_state_spec (some ⟨[(40, 5)], []⟩) Side.yes 40 (-5)).2.1
      ⟨[(40, 5)], []⟩ 5 (by decide),
   (update_orderbook_state_spec (some emptyBook) Side.yes 40 3).2.2
      emptyBook (by decide) (by decide)⟩

/-- Claim C3 counterexample: `initialize_orderbook_from_snapshot` copies
the message's sizes unchecked, so a snapshot carrying a zero-size level
`[40, 0]` stores a level with size 0 — the claimed size > 0 invariant is
not preserved by every engine operation. -/
theorem snapshot_init_stores_zero_size :
    pmGet (initialize_orderbook_from_snapshot none [(40, 0)] []).yes 40 = some 0 ∧
    ¬ (initialize_orderbook_from_snapshot none [(40, 0)] []).allPos := by
  decide

/-- Claim C3 as amended: `update_orderbook_state` preserves the size > 0
invariant; every sequence of deltas applied to an initially empty book
yields a book in which every stored level has size > 0; and
`initialize_orderbook_from_snapshot` preserves the invariant provided
every size in the message's arrays is positive. -/
theorem book_pos_invariant (b : Book) (sd : Side) (price delta : Int)
    (yesArr noArr : List (Int × Int)) (deltas : List (Side × Int × Int)) :
    (b.allPos → (update_orderbook_state (some b) sd price delta).allPos) ∧
    (deltas.foldl
      (fun bk d => update_orderbook_state (some bk) d.1 d.2.1 d.2.2)
      emptyBook).allPos ∧
    (b.allPos → (∀ e ∈ yesArr, 0 < e.2) → (∀ e ∈ noArr, 0 < e.2) →
      (initialize_orderbook_from_snapshot (some b) yesArr noArr).allPos) := by
  refine ⟨?_, foldl_deltas_allPos deltas emptyBook emptyBook_allPos, ?_⟩
  · intro hb
    exact update_preserves_allPos (some b) sd price delta hb
  · intro hb hy hn
    unfold initialize_orderbook_from_snapshot
    exact ⟨pmAllPos_foldl_pmSet yesArr _ hb.1 hy,
           pmAllPos_foldl_pmSet noArr _ hb.2 hn⟩

/-- Claim C3 witness: applying the delta sequence
`yes +5 @40, yes −2 @40, no +1 @60` to an empty book leaves only
positive sizes, and a snapshot with positive sizes applied over a
positive-size book keeps the invariant. -/
theorem book_pos_invariant_witness :
    ((([(Side.yes, 40, 5), (Side.yes, 40, -2), (Side.no, 60, 1)] :
        List (Side × Int × Int)).foldl
      (fun bk d => update_orderbook_state (some bk) d.1 d.2.1 d.2.2)
      emptyBook).allPos) ∧
    (initialize_orderbook_from_snapshot (some ⟨[(30, 5)], []⟩)
      [(40, 2)] [(60, 1)]).allPos :=
  ⟨(book_pos_invariant emptyBook Side.yes 0 0 [] []
      [(Side.yes, 40, 5), (Side.yes, 40, -2), (Side.no, 60, 1)]).2.1,
   (book_pos_invariant ⟨[(30, 5)], []⟩ Side.yes 0 0 [(40, 2)] [(60, 1)] []).2.2
      (by decide) (by decide) (by decide)⟩

/-- Claim C2 counterexample: re-initializing from a snapshot whose
arrays do not mention price 30 retains the stale prior level
`30 ↦ 5` — the maps do not contain exactly the pairs of the arrays, so
the operation is a merge, not a wholesale replacement. -/
theorem snapshot_init_retains_stale_level :
    pmGet (initialize_orderbook_from_snapshot (some ⟨[(30, 5)], []⟩)
      [(40, 2)] []).yes 30 = some 5 ∧
    pmGet (initialize_orderbook_from_snapshot (some ⟨[(30, 5)], []⟩)
      [(40, 2)] []).yes 40 = some 2 := by
  decide

/-- Claim C2 as amended: `initialize_orderbook_from_snapshot` merges the
arrays into the prior state: each price in an array ends at the last
size the array lists for it, while a price absent from the array keeps
its prior level — prior levels are never removed. -/
theorem init_merges_not_replaces (prior : Book)
    (yesArr noArr : List (Int × Int)) (p : Int) :
    (pmGet (initialize_orderbook_from_snapshot (some prior) yesArr noArr).yes p =
       overwrite yesArr p (pmGet prior.yes p)) ∧
    (pmGet (initialize_orderbook_from_snapshot (some prior) yesArr noArr).no p =
       overwrite noArr p (pmGet prior.no p)) ∧
    ((∀ e ∈ yesArr, e.1 ≠ p) →
       pmGet (initialize_orderbook_from_snapshot (some prior) yesArr noArr).yes p =
         pmGet prior.yes p) ∧
    ((∀ e ∈ noArr, e.1 ≠ p) →
       pmGet (initialize_orderbook_from_snapshot (some prior) yesArr noArr).no p =
         pmGet prior.no p) := by
  have hy : pmGet (initialize_orderbook_from_snapshot (some prior) yesArr noArr).yes p =
      overwrite yesArr p (pmGet prior.yes p) := by
    unfold initialize_orderbook_from_snapshot
    exact pmGet_foldl_pmSet yesArr _ p
  have hn : pmGet (initialize_orderbook_from_snapshot (some prior) yesArr noArr).no p =
      overwrite noArr p (pmGet prior.no p) := by
    unfold initialize_orderbook_from_snapshot
    exact pmGet_foldl_pmSet noArr _ p
  refine ⟨hy, hn, ?_, ?_⟩
  · intro habs
    rw [hy, overwrite_of_absent yesArr p _ habs]
  · intro habs
    rw [hn, overwrite_of_absent noArr p _ habs]

/-- Claim C2 witness: with prior YES level `30 ↦ 5` and snapshot arrays
`yes = [[40, 2]]`, `no = []`, price 30 is absent from the arrays and its
prior level is retained unchanged. -/
theorem init_merges_not_replaces_witness :
    pmGet (initialize_orderbook_from_snapshot (some ⟨[(30, 5)], []⟩)
      [(40, 2)] []).yes 30 = pmGet ([(30, 5)] : List (Int × Int)) 30 :=
  (init_merges_not_replaces ⟨[(30, 5)], []⟩ [(40, 2)] [] 30).2.2.1 (by decide)

/-- Claim C5: `get_best_prices` returns the maximum YES price as the
best bid (0 when the YES array is empty) and 100 minus the maximum NO
price as the best ask (100 when the NO array is empty), the mid-price
is their average, and on `YES = [[40,5],[45,3]]`, `NO = [[50,2],[58,10]]`
it yields best bid 45, best ask 42 and mid 43.5. -/
theorem get_best_prices_spec (yesArr noArr : List (Int × Int)) :
    ((yesArr = [] → (get_best_prices yesArr noArr).1 = 0) ∧
     (∀ e ∈ yesArr, e.1 ≤ (get_best_prices yesArr noArr).1) ∧
     (yesArr ≠ [] → (get_best_prices yesArr noArr).1 ∈ yesArr.map Prod.fst)) ∧
    ((noArr = [] → (get_best_prices yesArr noArr).2 = 100) ∧
     (∀ e ∈ noArr, (get_best_prices yesArr noArr).2 ≤ 100 - e.1) ∧
     (noArr ≠ [] → 100 - (get_best_prices yesArr noArr).2 ∈ noArr.map Prod.fst)) ∧
    get_best_prices [(40, 5), (45, 3)] [(50, 2), (58, 10)] = (45, 42) ∧
    mid_price 45 42 = 87 / 2 := by
  refine ⟨⟨?_, ?_, ?_⟩, ⟨?_, ?_, ?_⟩, by decide, by norm_num [mid_price]⟩
  · intro h
    subst h
    rfl
  · intro e he
    cases yesArr with
    | nil => cases he
    | cons x xs =>
      have h : listMax ((x :: xs).map Prod.fst) =
          some ((xs.map Prod.fst).foldl max x.1) := rfl
      have hb := listMax_bound _ _ h
      have hfst : (get_best_prices (x :: xs) noArr).1 =
          (xs.map Prod.fst).foldl max x.1 := rfl
      rw [hfst]
      exact hb.1 e.1 (List.mem_map_of_mem Prod.fst he)
  · intro hne
    cases yesArr with
    | nil => exact absurd rfl hne
    | cons x xs =>
      have h : listMax ((x :: xs).map Prod.fst) =
          some ((xs.map Prod.fst).foldl max x.1) := rfl
      have hb := listMax_bound _ _ h
      have hfst : (get_best_prices (x :: xs) noArr).1 =
          (xs.map Prod.fst).foldl max x.1 := rfl
      rw [hfst]
      exact hb.2
  · intro h
    subst h
    rfl
  · intro e he
    cases noArr with
    | nil => cases he
    | cons x xs =>
      have h : listMax ((x :: xs).map Prod.fst) =
          some ((xs.map Prod.fst).foldl max x.1) := rfl
      have hb := listMax_bound _ _ h
      have hsnd : (get_best_prices yesArr (x :: xs)).2 =
          100 - (xs.map Prod.fst).foldl max x.1 := rfl
      rw [hsnd]
      have := hb.1 e.1 (List.mem_map_of_mem Prod.fst he)
      omega
  · intro hne
    cases noArr with
    | nil => exact absurd rfl hne
    | cons x xs =>
      have h : listMax ((x :: xs).map Prod.fst) =
          some ((xs.map Prod.fst).foldl max x.1) := rfl
      have hb := listMax_bound _ _ h
      have hsnd : (get_best_prices yesArr (x :: xs)).2 =
          100 - (xs.map Prod.fst).foldl max x.1 := rfl
      rw [hsnd]
      have h100 : (100 : Int) - (100 - (xs.map Prod.fst).foldl max x.1) =
          (xs.map Prod.fst).foldl max x.1 := by omega
      rw [h100]
      exact hb.2

/-- Claim C6 counterexample: for the single snapshot `⟨ts 10, mid 50⟩`
and a trade at `t = 5` (before all history) with execution price 52,
the as-of mid is missing and the slippage is NaN (excluded), but the
1-second markout is the defined value 0: the trade is zero-filled into
the markout computation, not excluded from it. -/
theorem missing_snapshot_markout_zero_cex :
    midAt [⟨10, 50⟩] 5 = none ∧
    slippage 52 (midAt [⟨10, 50⟩] 5) (side_of 52 (midAt [⟨10, 50⟩] 5)) = none ∧
    markout 52 (futureMidAt [⟨10, 50⟩] 5 1)
      (side_of 52 (midAt [⟨10, 50⟩] 5)) = some 0 := by
  decide

/-- Claim C6 as amended: a trade whose timestamp precedes every
snapshot is excluded from the slippage computation (its slippage is
NaN), but not from the markout computation: its side is classified 0,
so every one of its markouts is the defined value 0 (zero-filled). -/
theorem missing_snapshot_handling (S : List Snap) (t h : Int) (exec : ℚ)
    (hnone : asof S t = none) :
    slippage exec (midAt S t) (side_of exec (midAt S t)) = none ∧
    markout exec (futureMidAt S t h) (side_of exec (midAt S t)) = some 0 := by
  have hm : midAt S t = none := by rw [midAt, hnone]; rfl
  rw [hm]
  exact ⟨rfl, by simp [side_of, markout]⟩

/-- Claim C6 witness: the amended statement at the concrete history
`[⟨10, 50⟩]`, trade time 5, horizon 1 and execution price 52. -/
theorem missing_snapshot_handling_witness :
    slippage 52 (midAt [⟨10, 50⟩] 5) (side_of 52 (midAt [⟨10, 50⟩] 5)) = none ∧
    markout 52 (futureMidAt [⟨10, 50⟩] 5 1)
      (side_of 52 (midAt [⟨10, 50⟩] 5)) = some 0 :=
  missing_snapshot_handling [⟨10, 50⟩] 5 1 52 (by decide)

/-- Claim C7: the signed-volume normalizer returns +count for a "yes"
taker, −count for a "no" taker, 0 for any other taker side, negates the
result for a linked (inverse) market, and on count 7 yields +7 / −7 /
+7 for yes / no / inverted no. -/
theorem signed_volume_spec (s : String) (c : Int) :
    signed_volume "yes" c false = c ∧
    signed_volume "no" c false = -c ∧
    (s ≠ "yes" → s ≠ "no" → signed_volume s c false = 0) ∧
    signed_volume s c true = -signed_volume s c false ∧
    signed_volume "yes" 7 false = 7 ∧
    signed_volume "no" 7 false = -7 ∧
    signed_volume "no" 7 true = 7 := by
  refine ⟨?_, ?_, ?_, ?_, by decide, by decide, by decide⟩
  · simp [signed_volume]
  · simp [signed_volume]
  · intro h1 h2
    simp [signed_volume, h1, h2]
  · by_cases h1 : s = "yes"
    · simp [signed_volume, h1]
    · by_cases h2 : s = "no" <;> simp [signed_volume, h1, h2]

/-- Claim C7 witness: the other-taker-side case discharged at the
concrete side "maker" with count 7. -/
theorem signed_volume_spec_witness :
    signed_volume "maker" 7 false = 0 :=
  (signed_volume_spec "maker" 7).2.2.1 (by decide) (by decide)

/-- Claim C8: the markout at horizon h is future mid − execution price
for inferred side +1, execution price − future mid for side −1 and 0
for any other side, and with execution 50 and future mid 53 it is +3
for side +1 and −3 for side −1. -/
theorem markout_spec (exec fm : ℚ) (fmid : Option ℚ) (s : Int) :
    markout exec (some fm) 1 = some (fm - exec) ∧
    markout exec (some fm) (-1) = some (exec - fm) ∧
    (s ≠ 1 → s ≠ -1 → markout exec fmid s = some 0) ∧
    markout 50 (some 53) 1 = some 3 ∧
    markout 50 (some 53) (-1) = some (-3) := by
  refine ⟨?_, ?_, ?_, ?_, ?_⟩
  · simp [markout]
  · simp [markout]
  · intro h1 h2
    simp [markout, h1, h2]
  · norm_num [markout]
  · norm_num [markout]

/-- Claim C8 witness: the side-0 case of the markout at execution 50
and future mid 53 is the defined value 0. -/
theorem markout_spec_witness :
    markout 50 (some 53) 0 = some 0 :=
  (markout_spec 50 53 (some 53) 0).2.2.1 (by decide) (by decide)

/-- Claim C9: with a defined mid, the inferred side is +1 exactly when
the execution price exceeds the mid, −1 exactly when below, 0 exactly
when equal, and the slippage `(exec − mid) × side` is non-negative,
the side factor matching the sign of `exec − mid` by construction. -/
theorem slippage_nonneg_spec (exec m : ℚ) :
    slippage exec (some m) (side_of exec (some m)) =
      some ((exec - m) * ((side_of exec (some m) : Int) : ℚ)) ∧
    0 ≤ (exec - m) * ((side_of exec (some m) : Int) : ℚ) ∧
    (side_of exec (some m) = 1 ↔ m < exec) ∧
    (side_of exec (some m) = -1 ↔ exec < m) ∧
    (side_of exec (some m) = 0 ↔ exec = m) := by
  have h1 : slippage exec (some m) (side_of exec (some m)) =
      some ((exec - m) * ((side_of exec (some m) : Int) : ℚ)) := rfl
  rcases lt_trichotomy m exec with h | h | h
  · have hs : side_of exec (some m) = 1 := by simp [side_of, h]
    have hnlt : ¬ exec < m := not_lt.mpr h.le
    have hne : exec ≠ m := ne_of_gt h
    refine ⟨h1, ?_, ?_, ?_, ?_⟩
    · rw [hs]
      push_cast
      nlinarith [sub_pos.mpr h]
    · rw [hs]
      simp [h]
    · rw [hs]
      exact ⟨fun hh => absurd hh (by decide), fun hh => absurd hh hnlt⟩
    · rw [hs]
      exact ⟨fun hh => absurd hh (by decide), fun hh => absurd hh hne⟩
  · have hs : side_of exec (some m) = 0 := by simp [side_of, h]
    refine ⟨h1, ?_, ?_, ?_, ?_⟩
    · rw [hs]
      push_cast
      nlinarith
    · rw [hs]
      constructor
      · intro hh
        exact absurd hh (by decide)
      · intro hh
        rw [h] at hh
        exact absurd hh (lt_irrefl exec)
    · rw [hs]
      constructor
      · intro hh
        exact absurd hh (by decide)
      · intro hh
        rw [h] at hh
        exact absurd hh (lt_irrefl exec)
    · rw [hs]
      exact ⟨fun _ => h.symm, fun _ => rfl⟩
  · have hlt : ¬ m < exec := not_lt.mpr h.le
    have hs : side_of exec (some m) = -1 := by simp [side_of, hlt, h]
    have hne : exec ≠ m := ne_of_lt h
    refine ⟨h1, ?_, ?_, ?_, ?_⟩
    · rw [hs]
      push_cast
      nlinarith [sub_pos.mpr h]
    · rw [hs]
      exact ⟨fun hh => absurd hh (by decide), fun hh => absurd hh hlt⟩
    · rw [hs]
      simp [h]
    · rw [hs]
      exact ⟨fun hh => absurd hh (by decide), fun hh => absurd hh hne⟩

/-- Claim C10: on snapshots whose YES and NO arrays are both non-empty,
the two independent extractors agree: the L1 prices of
`parse_snapshot` equal the best bid and best ask of
`get_best_prices` (max YES price, and 100 minus max NO price). -/
theorem extractors_agree (yesArr noArr : List (Int × Int))
    (hy : yesArr ≠ []) (hn : noArr ≠ []) :
    ((parse_snapshot yesArr noArr).1).map Prod.fst =
      some (get_best_prices yesArr noArr).1 ∧
    ((parse_snapshot yesArr noArr).2).map Prod.fst =
      some (get_best_prices yesArr noArr).2 := by
  obtain ⟨my, hmy⟩ := listMax_of_ne_nil (yesArr.map Prod.fst)
    (by simp [hy])
  obtain ⟨mn, hmn⟩ := listMax_of_ne_nil (noArr.map Prod.fst)
    (by simp [hn])
  have hyy := maxByFst_map_fst yesArr
  have hnn := maxByFst_map_fst noArr
  rw [hmy] at hyy
  rw [hmn] at hnn
  constructor
  · cases hmb : maxByFst yesArr with
    | none => rw [hmb] at hyy; cases hyy
    | some e =>
      rw [hmb] at hyy
      have he1 : e.1 = my := by
        simpa using hyy
      simp [parse_snapshot, hmb, get_best_prices, hmy, he1]
  · cases hmb : maxByFst noArr with
    | none => rw [hmb] at hnn; cases hnn
    | some e =>
      rw [hmb] at hnn
      have he1 : e.1 = mn := by
        simpa using hnn
      simp [parse_snapshot, hmb, get_best_prices, hmn, he1]

/-- Claim C10 witness: both extractors at the concrete snapshot
`YES = [[40,5],[45,3]]`, `NO = [[50,2],[58,10]]`. -/
theorem extractors_agree_witness :
    ((parse_snapshot [(40, 5), (45, 3)] [(50, 2), (58, 10)]).1).map Prod.fst =
      some (get_best_prices [(40, 5), (45, 3)] [(50, 2), (58, 10)]).1 ∧
    ((parse_snapshot [(40, 5), (45, 3)] [(50, 2), (58, 10)]).2).map Prod.fst =
      some (get_best_prices [(40, 5), (45, 3)] [(50, 2), (58, 10)]).2 :=
  extractors_agree [(40, 5), (45, 3)] [(50, 2), (58, 10)] (by decide) (by decide)
